import Mathlib

/-!
Verification of the MyOPL language-intelligence core (`src/LSP/main.py`).

The analyzer `parse_document`, the per-document store, and the three query
resolvers (`definition`, `hover`, `completions`) are shallowly embedded as
total Lean functions over `List Char` lines.  Python behaviours that can
fault (the unchecked `doc.lines[pos.line]` index) are embedded in `Except`.
All definitions are executable and structurally recursive so that concrete
witnesses evaluate by `decide` / `rfl`.

Modelling notes:
* characters are treated as ASCII, matching the regex classes
  `[a-zA-Z_][a-zA-Z0-9_]*` used by the source; `str.splitlines` is modelled
  for the terminators `\n`, `\r\n`, `\r` (Python additionally splits on a
  few rare control characters); `str.strip` is modelled on the ASCII
  whitespace characters.
-/

namespace MyOPL

/-- ASCII whitespace accepted by Python `str.strip()` / `str.split()`. -/
def pyIsSpace (c : Char) : Bool :=
  c = ' ' || c = '\t' || c = '\n' || c = '\r' || c = '\x0b' || c = '\x0c'

/-- Python `str.strip()`: drop whitespace from both ends. -/
def pyStrip (l : List Char) : List Char :=
  ((l.dropWhile pyIsSpace).reverse.dropWhile pyIsSpace).reverse

/-- One step of Python `str.splitlines`: accumulate the current line (in
`acc`, reversed) until a `\n`, `\r\n` or `\r` terminator; a trailing
terminator produces no extra empty line. -/
def splitLinesGo : List Char → List Char → List (List Char)
  | acc, [] => [acc.reverse]
  | acc, '\r' :: '\n' :: rest2 =>
    acc.reverse :: (if rest2.isEmpty then [] else splitLinesGo [] rest2)
  | acc, '\n' :: rest =>
    acc.reverse :: (if rest.isEmpty then [] else splitLinesGo [] rest)
  | acc, '\r' :: rest =>
    acc.reverse :: (if rest.isEmpty then [] else splitLinesGo [] rest)
  | acc, c :: rest => splitLinesGo (c :: acc) rest

/-- Python `text.splitlines()` (empty text yields no lines). -/
def splitLines (l : List Char) : List (List Char) :=
  if l.isEmpty then [] else splitLinesGo [] l

/-- Word characters of the validation regex (`[a-zA-Z0-9_]`, the class the
regex word boundaries `\b` key on for ASCII text). -/
def isWordChar (c : Char) : Bool :=
  c.isAlpha || c.isDigit || c = '_'

/-- Characters that may start an identifier (`[a-zA-Z_]`). -/
def isIdentStart (c : Char) : Bool :=
  c.isAlpha || c = '_'

/-- A token produced by the validation regex: start column plus text. -/
structure Token where
  start : Nat
  text : List Char
deriving DecidableEq

/-- One past the last column of a token (`match.end()` in the source). -/
def Token.stop (t : Token) : Nat := t.start + t.text.length

/-- State machine for `re.finditer(r'\b([a-zA-Z_][a-zA-Z0-9_]*)\b', line)`:
a token is a maximal run of word characters whose first character is a
letter or underscore (runs starting with a digit match no `\b`-delimited
occurrence of the pattern and are skipped whole).  The pending state holds
the start column, whether the run began with an identifier-start character,
and the run's characters so far (reversed). -/
def tokenizeAux : Nat → Option (Nat × Bool × List Char) → List Char → List Token
  | _, none, [] => []
  | _, some (s, isId, acc), [] =>
    if isId then [⟨s, acc.reverse⟩] else []
  | i, none, c :: cs =>
    if isWordChar c then tokenizeAux (i + 1) (some (i, isIdentStart c, [c])) cs
    else tokenizeAux (i + 1) none cs
  | i, some (s, isId, acc), c :: cs =>
    if isWordChar c then tokenizeAux (i + 1) (some (s, isId, c :: acc)) cs
    else (if isId then [⟨s, acc.reverse⟩] else []) ++ tokenizeAux (i + 1) none cs

/-- All identifier tokens of a line, with their columns. -/
def tokenize (l : List Char) : List Token := tokenizeAux 0 none l

/-- First index (from the current position) at which `pat` occurs as a
contiguous sublist, if any. -/
def findSub (pat : List Char) : List Char → Option Nat
  | [] => if List.isPrefixOf pat [] then some 0 else none
  | c :: rest =>
    if List.isPrefixOf pat (c :: rest) then some 0
    else (findSub pat rest).map (fun j => j + 1)

/-- Python `line.find(pat)`: first occurrence index, `-1` when absent. -/
def pyFind (l pat : List Char) : Int :=
  match findSub pat l with
  | some j => (j : Int)
  | none => -1

/-- The language keywords (`KEYWORDS` in the source). -/
def KEYWORDS : List String :=
  ["VAR", "AND", "OR", "NOT", "IF", "ELIF", "ELSE", "FOR", "TO",
   "STEP", "WHILE", "FUN", "THEN", "END", "RETURN", "CONTINUE", "BREAK"]

/-- The builtin functions with their documentation (`BUILTIN_FUNCTIONS`). -/
def BUILTIN_FUNCTIONS : List (String × String) :=
  [("print", "Prints the given values"),
   ("print_ret", "Prints and returns the given values"),
   ("input", "Gets input from user"),
   ("input_int", "Gets integer input from user"),
   ("clear", "Clears the screen"),
   ("is_number", "Checks if value is a number"),
   ("is_string", "Checks if value is a string"),
   ("is_list", "Checks if value is a list"),
   ("is_function", "Checks if value is a function"),
   ("append", "Appends item to list"),
   ("pop", "Removes and returns item from list"),
   ("extend", "Extends list with another list"),
   ("len", "Returns length of collection"),
   ("run", "Runs code from string")]

/-- The keywords as character lists, for token comparisons. -/
def keywordsData : List (List Char) := KEYWORDS.map String.data

/-- The builtin registry keyed by character lists. -/
def builtinsData : List (List Char × String) :=
  BUILTIN_FUNCTIONS.map (fun p => (p.1.data, p.2))

/-- The builtin function names. -/
def builtinNames : List (List Char) := builtinsData.map Prod.fst

/-- A declared variable: declaration line, declaration column (`str.find`
result, hence an `Int`), and raw declared value text. -/
abbrev VarInfo := Nat × Int × List Char

/-- First-match association-list lookup (Python `dict` read). -/
def lookupList {α β : Type} [DecidableEq α] (k : α) : List (α × β) → Option β
  | [] => none
  | (k', v) :: rest => if k' = k then some v else lookupList k rest

/-- Python `dict` write: replace the value in place when the key exists,
otherwise append the new binding. -/
def dictInsert {α β : Type} [DecidableEq α] (k : α) (v : β) :
    List (α × β) → List (α × β)
  | [] => [(k, v)]
  | (k', v') :: rest =>
    if k' = k then (k, v) :: rest else (k', v') :: dictInsert k v rest

/-- Python `str.split(maxsplit=2)` on whitespace: at most three parts, the
third being the remainder verbatim after the separator run. -/
def splitMax2 (l : List Char) : List (List Char) :=
  let l0 := l.dropWhile pyIsSpace
  if l0.isEmpty then []
  else
    let w1 := l0.takeWhile (fun c => !(pyIsSpace c))
    let r1 := (l0.dropWhile (fun c => !(pyIsSpace c))).dropWhile pyIsSpace
    if r1.isEmpty then [w1]
    else
      let w2 := r1.takeWhile (fun c => !(pyIsSpace c))
      let r2 := (r1.dropWhile (fun c => !(pyIsSpace c))).dropWhile pyIsSpace
      if r2.isEmpty then [w1, w2] else [w1, w2, r2]

/-- The declaration pass for one line: strip it, test
`line.upper().startswith("VAR ")`, split into at most three parts and,
when a name is present, return `(name, line.find(name), value)` with the
value defaulting to `"undefined"`. -/
def declInfo (rawLine : List Char) : Option (List Char × Int × List Char) :=
  let line := pyStrip rawLine
  if List.isPrefixOf "VAR ".data (line.map Char.toUpper) then
    match splitMax2 line with
    | _ :: name :: rest =>
      let value := match rest with
        | v :: _ => v
        | [] => "undefined".data
      some (name, pyFind line name, value)
    | _ => none
  else none

/-- The declaration pass over all lines (`for line_num, line in
enumerate(lines)` with the running dictionary of vars). -/
def collectVariables (vars : List (List Char × VarInfo)) :
    Nat → List (List Char) → List (List Char × VarInfo)
  | _, [] => vars
  | lineNum, l :: rest =>
    match declInfo l with
    | some (name, col, value) =>
      collectVariables (dictInsert name (lineNum, col, value) vars) (lineNum + 1) rest
    | none => collectVariables vars (lineNum + 1) rest

/-- `types.DiagnosticSeverity`. -/
inductive DiagnosticSeverity
  | Error
  | Warning
  | Information
  | Hint
deriving DecidableEq

/-- `types.Position` (the column can be a raw `str.find` result). -/
structure Position where
  line : Nat
  character : Int
deriving DecidableEq

/-- `types.Range` (`stop` models the LSP `end` field). -/
structure Range where
  start : Position
  stop : Position
deriving DecidableEq

/-- `types.Diagnostic`, restricted to the fields the source populates. -/
structure Diagnostic where
  range : Range
  message : String
  severity : DiagnosticSeverity
  source : String
deriving DecidableEq

/-- The ASCII apostrophe used by the diagnostic message. -/
def singleQuote : Char := Char.ofNat 39

/-- The f-string `f"Undefined identifier: '{word}'"`. -/
def undefinedMessage (w : List Char) : String :=
  String.mk ("Undefined identifier: ".data ++ singleQuote :: (w ++ [singleQuote]))

/-- The diagnostic the validation pass appends for a flagged token. -/
def mkDiagnostic (lineNum : Nat) (t : Token) : Diagnostic :=
  { range :=
      { start := { line := lineNum, character := (t.start : Int) },
        stop := { line := lineNum, character := (t.start : Int) + t.text.length } },
    message := undefinedMessage t.text,
    severity := DiagnosticSeverity.Error,
    source := "MyOPL" }

/-- `word in KEYWORDS or word in valid_identifiers or word.upper() in
KEYWORDS or word in BUILTIN_FUNCTIONS`, where `valid_identifiers` is the
set of declared names united with the builtin names. -/
def acceptedWord (vars : List (List Char × VarInfo)) (w : List Char) : Bool :=
  decide (w ∈ keywordsData) ||
  decide (w ∈ vars.map Prod.fst ++ builtinNames) ||
  decide (w.map Char.toUpper ∈ keywordsData) ||
  decide (w ∈ builtinNames)

/-- The validation pass for one line: strip it, skip it when empty or a
`//` comment, otherwise emit one diagnostic per non-accepted token. -/
def lineDiagnostics (vars : List (List Char × VarInfo)) (lineNum : Nat)
    (rawLine : List Char) : List Diagnostic :=
  let line := pyStrip rawLine
  if line.isEmpty || List.isPrefixOf "//".data line then []
  else
    (tokenize line).filterMap (fun t =>
      if acceptedWord vars t.text then none else some (mkDiagnostic lineNum t))

/-- The validation pass over all lines. -/
def validateLines (vars : List (List Char × VarInfo)) :
    Nat → List (List Char) → List Diagnostic
  | _, [] => []
  | lineNum, l :: rest =>
    lineDiagnostics vars lineNum l ++ validateLines vars (lineNum + 1) rest

/-- `parse_document(text)`: the declaration pass followed by the
validation pass. -/
def parse_document (text : String) :
    List (List Char × VarInfo) × List Diagnostic :=
  let lines := splitLines text.data
  let vars := collectVariables [] 0 lines
  (vars, validateLines vars 0 lines)

/-- One document snapshot: raw text plus its variable table. -/
structure DocState where
  text : String
  vars : List (List Char × VarInfo)
deriving DecidableEq

/-- The `document_states` map, keyed by URI. -/
abbrev DocumentStates := List (String × DocState)

/-- The `did_open` / `did_change` handlers' store update: re-analyze and
replace the snapshot wholesale. -/
def storeDocument (store : DocumentStates) (uri : String) (text : String) :
    DocumentStates :=
  dictInsert uri { text := text, vars := (parse_document text).1 } store

/-- Cursor position of a request (`params.position`). -/
structure CursorPos where
  line : Nat
  character : Nat
deriving DecidableEq

/-- `types.Location`. -/
structure Location where
  uri : String
  range : Range
deriving DecidableEq

/-- The body of the `definition` token loop for one regex match: the match
must bracket the cursor (inclusive on both ends, as in
`match.start() <= pos.character <= match.end()`), and its text must be a
declared variable. -/
def definitionToken (st : DocState) (uri : String) (character : Nat)
    (t : Token) : Option Location :=
  if t.start ≤ character ∧ character ≤ t.stop then
    match lookupList t.text st.vars with
    | some (lineNum, col, _) =>
      some { uri := uri,
             range :=
               { start := { line := lineNum, character := col },
                 stop := { line := lineNum, character := col + t.text.length } } }
    | none => none
  else none

/-- The `definition` feature handler.  The unchecked Python index
`doc.lines[pos.line]` is embedded as an `Except` error. -/
def definitionR (store : DocumentStates) (uri : String) (pos : CursorPos) :
    Except String (Option Location) :=
  match lookupList uri store with
  | none => Except.ok none
  | some st =>
    match (splitLines st.text.data).get? pos.line with
    | none => Except.error "IndexError"
    | some line =>
      Except.ok ((tokenize line).findSome? (definitionToken st uri pos.character))

/-- Hover payload: markup string plus optional highlight range. -/
structure HoverResult where
  contents : String
  range : Option Range
deriving DecidableEq

/-- `f"**Variable**: `{word}`\n\n**Value**: `{value}`"`. -/
def hoverVariableContents (w v : List Char) : String :=
  "**Variable**: `" ++ String.mk w ++ "`\n\n**Value**: `" ++ String.mk v ++ "`"

/-- `f"**Built-in function**: `{word}`\n\n{BUILTIN_FUNCTIONS[word]}"`. -/
def hoverBuiltinContents (w : List Char) (desc : String) : String :=
  "**Built-in function**: `" ++ String.mk w ++ "`\n\n" ++ desc

/-- `f"**Keyword**: `{word.upper()}`"`. -/
def hoverKeywordContents (w : List Char) : String :=
  "**Keyword**: `" ++ String.mk (w.map Char.toUpper) ++ "`"

/-- The body of the `hover` token loop for one bracketing candidate:
declared variable first (with a highlight range), then builtin function,
then keyword, each returning immediately. -/
def hoverToken (st : DocState) (line : Nat) (character : Nat)
    (t : Token) : Option HoverResult :=
  if t.start ≤ character ∧ character ≤ t.stop then
    match lookupList t.text st.vars with
    | some (_, _, value) =>
      some { contents := hoverVariableContents t.text value,
             range := some
               { start := { line := line, character := (t.start : Int) },
                 stop := { line := line, character := (t.stop : Int) } } }
    | none =>
      match lookupList t.text builtinsData with
      | some desc =>
        some { contents := hoverBuiltinContents t.text desc, range := none }
      | none =>
        if decide (t.text.map Char.toUpper ∈ keywordsData) then
          some { contents := hoverKeywordContents t.text, range := none }
        else none
  else none

/-- The `hover` feature handler, with the same fallible line index. -/
def hoverR (store : DocumentStates) (uri : String) (pos : CursorPos) :
    Except String (Option HoverResult) :=
  match lookupList uri store with
  | none => Except.ok none
  | some st =>
    match (splitLines st.text.data).get? pos.line with
    | none => Except.error "IndexError"
    | some line =>
      Except.ok ((tokenize line).findSome? (hoverToken st pos.line pos.character))

/-- `types.CompletionItemKind`, restricted to the kinds used. -/
inductive CompletionKind
  | Variable
  | Keyword
  | Function
deriving DecidableEq

/-- `types.CompletionItem`, restricted to the fields the source sets. -/
structure CompletionItem where
  label : String
  kind : CompletionKind
  documentation : String
  detail : Option String := none
  insertText : Option String := none
  snippet : Bool := false
deriving DecidableEq

/-- The `completions` feature handler: variable candidates when the
document is known, then always every keyword and every builtin. -/
def completionsR (store : DocumentStates) (uri : String) : List CompletionItem :=
  (match lookupList uri store with
   | some st =>
     st.vars.map (fun p =>
       { label := String.mk p.1,
         kind := CompletionKind.Variable,
         documentation := "Value: " ++ String.mk p.2.2.2,
         detail := some ("Variable: " ++ String.mk p.1 ++ " = " ++ String.mk p.2.2.2) })
   | none => [])
  ++ KEYWORDS.map (fun kw =>
       { label := kw,
         kind := CompletionKind.Keyword,
         documentation := "MyOPL keyword",
         insertText := some kw.toLower })
  ++ BUILTIN_FUNCTIONS.map (fun p =>
       { label := p.1,
         kind := CompletionKind.Function,
         documentation := p.2,
         insertText := some (p.1 ++ "($0)"),
         snippet := true })

/-! ### Tokenizer lemmas -/

/-- Resolving the pending state: the run extends over the maximal prefix of
word characters and scanning resumes past it. -/
lemma tokenizeAux_pending (l : List Char) :
    ∀ (i s : Nat) (b : Bool) (acc : List Char),
    tokenizeAux i (some (s, b, acc)) l =
      (if b then [⟨s, acc.reverse ++ l.takeWhile isWordChar⟩] else []) ++
      tokenizeAux (i + (l.takeWhile isWordChar).length) none (l.dropWhile isWordChar) := by
  induction l with
  | nil =>
    intro i s b acc
    cases b <;> simp [tokenizeAux]
  | cons c cs ih =>
    intro i s b acc
    by_cases hw : isWordChar c
    · simp only [tokenizeAux, hw, if_true]
      rw [ih]
      have harith : i + 1 + (cs.takeWhile isWordChar).length =
          i + ((c :: cs).takeWhile isWordChar).length := by
        simp [List.takeWhile_cons, hw]
        omega
      rw [harith]
      cases b <;> simp [List.takeWhile_cons, List.dropWhile_cons, hw, List.append_assoc]
    · simp only [tokenizeAux, hw, if_false]
      have h1 : (c :: cs).takeWhile isWordChar = [] := by
        simp [List.takeWhile_cons, hw]
      have h2 : (c :: cs).dropWhile isWordChar = c :: cs := by
        simp [List.dropWhile_cons, hw]
      rw [h1, h2]
      have h3 : tokenizeAux (i + 0) none (c :: cs) = tokenizeAux (i + 1) none cs := by
        simp [tokenizeAux, hw]
      simp only [List.length_nil, h3]
      simp

/-- Scanning from the idle state at a word character consumes the whole
maximal run, emitting it as a token exactly when it starts an identifier. -/
lemma tokenizeAux_none_cons_word {c : Char} (hw : isWordChar c) (i : Nat) (cs : List Char) :
    tokenizeAux i none (c :: cs) =
      (if isIdentStart c then [⟨i, c :: cs.takeWhile isWordChar⟩] else []) ++
      tokenizeAux (i + (c :: cs.takeWhile isWordChar).length) none (cs.dropWhile isWordChar) := by
  have h1 : tokenizeAux i none (c :: cs) =
      tokenizeAux (i + 1) (some (i, isIdentStart c, [c])) cs := by
    simp [tokenizeAux, hw]
  rw [h1, tokenizeAux_pending]
  have harith : i + 1 + (cs.takeWhile isWordChar).length =
      i + (c :: cs.takeWhile isWordChar).length := by
    simp; omega
  rw [harith]
  cases hid : isIdentStart c <;> simp

/-- Scanning from the idle state at a non-word character skips it. -/
lemma tokenizeAux_none_cons_notword {c : Char} (hw : ¬ isWordChar c) (i : Nat) (cs : List Char) :
    tokenizeAux i none (c :: cs) = tokenizeAux (i + 1) none cs := by
  simp [tokenizeAux, hw]

/-- The head of a `dropWhile` result fails the predicate. -/
lemma dropWhile_head_false {p : Char → Bool} :
    ∀ (l : List Char) {d : Char} {ds : List Char},
      l.dropWhile p = d :: ds → p d = false := by
  intro l
  induction l with
  | nil => intro d ds h; simp [List.dropWhile] at h
  | cons c cs ih =>
    intro d ds h
    by_cases hc : p c
    · rw [List.dropWhile_cons_of_pos hc] at h
      exact ih h
    · rw [List.dropWhile_cons_of_neg hc] at h
      cases h
      simpa using hc

/-- Every token produced from the idle state starts at or after the
current column. -/
lemma tokenizeAux_start_le : ∀ (n : Nat) (l : List Char) (i : Nat), l.length ≤ n →
    ∀ t ∈ tokenizeAux i none l, i ≤ t.start := by
  intro n
  induction n with
  | zero =>
    intro l i hl t ht
    rw [List.length_eq_zero.1 (Nat.le_zero.1 hl)] at ht
    simp [tokenizeAux] at ht
  | succ n ih =>
    intro l i hl t ht
    cases l with
    | nil => simp [tokenizeAux] at ht
    | cons c cs =>
      by_cases hw : isWordChar c
      · rw [tokenizeAux_none_cons_word hw] at ht
        rcases List.mem_append.1 ht with h | h
        · rcases Bool.dichotomy (isIdentStart c) with hid | hid <;> simp [hid] at h
          rw [h]
        · have hlen : (cs.dropWhile isWordChar).length ≤ n := by
            have hsuf : (cs.dropWhile isWordChar).length ≤ cs.length :=
              (List.dropWhile_suffix isWordChar).length_le
            simp at hl; omega
          have := ih _ _ hlen t h
          omega
      · rw [tokenizeAux_none_cons_notword hw] at ht
        have hlen : cs.length ≤ n := by simp at hl; omega
        have := ih _ _ hlen t ht
        omega

/-- Tokens produced from the idle state are separated: each ends strictly
before the next begins (the regex matches are disjoint maximal runs with a
non-word character between consecutive matches). -/
lemma tokenizeAux_pairwise : ∀ (n : Nat) (l : List Char) (i : Nat), l.length ≤ n →
    (tokenizeAux i none l).Pairwise (fun a b => a.stop < b.start) := by
  intro n
  induction n with
  | zero =>
    intro l i hl
    rw [List.length_eq_zero.1 (Nat.le_zero.1 hl)]
    simp [tokenizeAux]
  | succ n ih =>
    intro l i hl
    cases l with
    | nil => simp [tokenizeAux]
    | cons c cs =>
      by_cases hw : isWordChar c
      · rw [tokenizeAux_none_cons_word hw]
        have hlen : (cs.dropWhile isWordChar).length ≤ n := by
          have hsuf : (cs.dropWhile isWordChar).length ≤ cs.length :=
            (List.dropWhile_suffix isWordChar).length_le
          simp at hl; omega
        have hrest := ih (cs.dropWhile isWordChar)
          (i + (c :: cs.takeWhile isWordChar).length) hlen
        have hgap : ∀ t ∈ tokenizeAux (i + (c :: cs.takeWhile isWordChar).length) none
            (cs.dropWhile isWordChar),
            Token.stop ⟨i, c :: cs.takeWhile isWordChar⟩ < t.start := by
          intro t ht
          cases hdw : cs.dropWhile isWordChar with
          | nil => rw [hdw] at ht; simp [tokenizeAux] at ht
          | cons d ds =>
            rw [hdw] at ht
            have hd : isWordChar d = false := dropWhile_head_false cs hdw
            rw [tokenizeAux_none_cons_notword (by simp [hd])] at ht
            have hds : ds.length ≤ n := by
              have h1 : (d :: ds).length ≤ cs.length := by
                rw [← hdw]
                exact (List.dropWhile_suffix isWordChar).length_le
              simp at h1 hl; omega
            have := tokenizeAux_start_le n ds _ hds t ht
            simp only [Token.stop, List.length_cons] at this ⊢
            omega
        rcases Bool.dichotomy (isIdentStart c) with hid | hid
        · simpa [hid] using hrest
        · simpa [hid] using List.Pairwise.cons hgap hrest
      · rw [tokenizeAux_none_cons_notword hw]
        have hlen : cs.length ≤ n := by simp at hl; omega
        exact ih cs (i + 1) hlen

/-- The tokens of a line are separated in order. -/
lemma tokenize_pairwise (l : List Char) :
    (tokenize l).Pairwise (fun a b => a.stop < b.start) :=
  tokenizeAux_pairwise l.length l 0 le_rfl

/-- Distinct tokens of a line never both bracket one cursor column
(`match.start() <= pos.character <= match.end()` holds for at most one
regex match). -/
lemma tokenize_bracket_eq {l : List Char} {t₁ t₂ : Token} {c : Nat}
    (h₁ : t₁ ∈ tokenize l) (h₂ : t₂ ∈ tokenize l)
    (ha1 : t₁.start ≤ c) (ha2 : c ≤ t₁.stop)
    (hb1 : t₂.start ≤ c) (hb2 : c ≤ t₂.stop) : t₁ = t₂ := by
  by_contra hne
  have hp : (tokenize l).Pairwise
      (fun a b => a.stop < b.start ∨ b.stop < a.start) :=
    (tokenize_pairwise l).imp (fun h => Or.inl h)
  have hsym : Symmetric (fun a b : Token => a.stop < b.start ∨ b.stop < a.start) := by
    intro a b h; exact h.symm
  have := hp.forall hsym h₁ h₂ hne
  rcases this with h | h
  · have : t₂.start ≤ c := hb1
    omega
  · omega

/-- Tokens of a line with equal start columns are equal. -/
lemma tokenize_start_inj {l : List Char} {t₁ t₂ : Token}
    (h₁ : t₁ ∈ tokenize l) (h₂ : t₂ ∈ tokenize l)
    (h : t₁.start = t₂.start) : t₁ = t₂ := by
  apply tokenize_bracket_eq h₁ h₂ le_rfl (Nat.le_add_right _ _) (le_of_eq h.symm)
  have : t₂.start ≤ t₂.stop := Nat.le_add_right _ _
  omega

/-- The token list of a line has no duplicates. -/
lemma tokenize_nodup (l : List Char) : (tokenize l).Nodup := by
  refine (tokenize_pairwise l).imp ?_
  intro a b h he
  rw [he] at h
  have : b.start ≤ b.stop := Nat.le_add_right _ _
  omega

/-! ### Resolution of the token-under-cursor loops -/

/-- A first-some scan over separated tokens with a bracketing guard
resolves to the unique bracketing token's value: earlier tokens end before
the cursor and later ones begin after it. -/
lemma findSome?_bracketed {β : Type} (f : Token → Option β) (c : Nat) :
    ∀ (ts : List Token), ts.Pairwise (fun a b => a.stop < b.start) →
    ∀ t ∈ ts, t.start ≤ c → c ≤ t.stop →
    (∀ u, ¬ (u.start ≤ c ∧ c ≤ u.stop) → f u = none) →
    ts.findSome? f = f t := by
  intro ts
  induction ts with
  | nil => intro _ t ht; simp at ht
  | cons u us ih =>
    intro hpw t ht hb1 hb2 hf
    rcases List.pairwise_cons.1 hpw with ⟨hu, hus⟩
    rcases List.mem_cons.1 ht with rfl | htu
    · rw [List.findSome?_cons]
      cases hft : f t with
      | some b => simp
      | none =>
        simp only []
        apply List.findSome?_eq_none_iff.2
        intro v hv
        apply hf
        have := hu v hv
        intro hc
        omega
    · rw [List.findSome?_cons]
      have hfu : f u = none := by
        apply hf
        have := hu t htu
        intro hc
        omega
      rw [hfu]
      exact ih hus t htu hb1 hb2 hf

/-- Under a stored snapshot and an in-range line, `definition` resolves to
the inner check on the (unique) token bracketing the cursor. -/
lemma definitionR_resolved {store : DocumentStates} {uri : String}
    {st : DocState} {pos : CursorPos} {line : List Char} {t : Token}
    (hs : lookupList uri store = some st)
    (hl : (splitLines st.text.data).get? pos.line = some line)
    (ht : t ∈ tokenize line)
    (hb1 : t.start ≤ pos.character) (hb2 : pos.character ≤ t.stop) :
    definitionR store uri pos = Except.ok (definitionToken st uri pos.character t) := by
  simp only [definitionR, hs, hl]
  congr 1
  apply findSome?_bracketed _ _ _ (tokenize_pairwise line) t ht hb1 hb2
  intro u hu
  simp only [definitionToken, if_neg hu]

/-- Under a stored snapshot and an in-range line, `hover` resolves to the
inner category checks on the token bracketing the cursor. -/
lemma hoverR_resolved {store : DocumentStates} {uri : String}
    {st : DocState} {pos : CursorPos} {line : List Char} {t : Token}
    (hs : lookupList uri store = some st)
    (hl : (splitLines st.text.data).get? pos.line = some line)
    (ht : t ∈ tokenize line)
    (hb1 : t.start ≤ pos.character) (hb2 : pos.character ≤ t.stop) :
    hoverR store uri pos = Except.ok (hoverToken st pos.line pos.character t) := by
  simp only [hoverR, hs, hl]
  congr 1
  apply findSome?_bracketed _ _ _ (tokenize_pairwise line) t ht hb1 hb2
  intro u hu
  simp only [hoverToken, if_neg hu]

/-! ### Dictionary and declaration-pass lemmas -/

/-- Inserting over an equal stored key replaces it in place. -/
lemma dictInsert_cons_pos {α β : Type} [DecidableEq α] {k a : α} (v b : β)
    (rest : List (α × β)) (h : a = k) :
    dictInsert k v ((a, b) :: rest) = (k, v) :: rest := by
  simp [dictInsert, h]

/-- Inserting past a different stored key walks on. -/
lemma dictInsert_cons_neg {α β : Type} [DecidableEq α] {k a : α} (v b : β)
    (rest : List (α × β)) (h : ¬ a = k) :
    dictInsert k v ((a, b) :: rest) = (a, b) :: dictInsert k v rest := by
  simp [dictInsert, h]

/-- Every entry of `dictInsert` is the new binding or an old entry. -/
lemma mem_dictInsert {α β : Type} [DecidableEq α] {k : α} {v : β} :
    ∀ (l : List (α × β)) (e : α × β), e ∈ dictInsert k v l → e = (k, v) ∨ e ∈ l := by
  intro l
  induction l with
  | nil => intro e he; simp [dictInsert] at he; exact Or.inl he
  | cons p rest ih =>
    obtain ⟨a, b⟩ := p
    intro e he
    by_cases hk : a = k
    · rw [dictInsert_cons_pos v b rest hk] at he
      rcases List.mem_cons.1 he with h | h
      · exact Or.inl h
      · exact Or.inr (List.mem_cons_of_mem _ h)
    · rw [dictInsert_cons_neg v b rest hk] at he
      rcases List.mem_cons.1 he with h | h
      · refine Or.inr ?_
        rw [h]
        exact List.mem_cons_self _ _
      · rcases ih e h with h' | h'
        · exact Or.inl h'
        · exact Or.inr (List.mem_cons_of_mem _ h')

/-- Looking up the key just written yields the written value. -/
lemma lookup_dictInsert_self {α β : Type} [DecidableEq α] (k : α) (v : β) :
    ∀ (l : List (α × β)), lookupList k (dictInsert k v l) = some v := by
  intro l
  induction l with
  | nil => simp [dictInsert, lookupList]
  | cons p rest ih =>
    obtain ⟨a, b⟩ := p
    by_cases hk : a = k
    · rw [dictInsert_cons_pos v b rest hk]
      simp [lookupList]
    · rw [dictInsert_cons_neg v b rest hk]
      simp only [lookupList]
      rw [if_neg hk]
      exact ih

/-- Writing a different key leaves a lookup unchanged. -/
lemma lookup_dictInsert_ne {α β : Type} [DecidableEq α] {a k : α} (v : β)
    (h : a ≠ k) :
    ∀ (l : List (α × β)), lookupList a (dictInsert k v l) = lookupList a l := by
  intro l
  induction l with
  | nil =>
    simp only [dictInsert, lookupList]
    rw [if_neg (fun he => h he.symm)]
  | cons p rest ih =>
    obtain ⟨a', b'⟩ := p
    by_cases hk : a' = k
    · rw [dictInsert_cons_pos v b' rest hk]
      simp only [lookupList]
      rw [if_neg (fun he => h he.symm), if_neg (fun he : a' = a => h (he ▸ hk))]
    · rw [dictInsert_cons_neg v b' rest hk]
      simp only [lookupList]
      rw [ih]

/-- The key set after a `dictInsert`. -/
lemma mem_keys_dictInsert {α β : Type} [DecidableEq α] {a k : α} {v : β} :
    ∀ (l : List (α × β)),
      (a ∈ (dictInsert k v l).map Prod.fst ↔ a = k ∨ a ∈ l.map Prod.fst) := by
  intro l
  induction l with
  | nil => simp [dictInsert]
  | cons p rest ih =>
    obtain ⟨a', b'⟩ := p
    by_cases hk : a' = k
    · rw [dictInsert_cons_pos v b' rest hk]
      subst hk
      simp only [List.map_cons, List.mem_cons]
      tauto
    · rw [dictInsert_cons_neg v b' rest hk]
      simp only [List.map_cons, List.mem_cons, ih]
      tauto

/-- `dictInsert` preserves distinctness of the stored keys. -/
lemma dictInsert_keys_nodup {α β : Type} [DecidableEq α] {k : α} {v : β} :
    ∀ (l : List (α × β)), (l.map Prod.fst).Nodup →
      ((dictInsert k v l).map Prod.fst).Nodup := by
  intro l
  induction l with
  | nil => simp [dictInsert]
  | cons p rest ih =>
    obtain ⟨a', b'⟩ := p
    intro h
    rw [List.map_cons] at h
    rcases List.nodup_cons.1 h with ⟨hp, hrest⟩
    by_cases hk : a' = k
    · rw [dictInsert_cons_pos v b' rest hk, List.map_cons, List.nodup_cons]
      exact ⟨fun hm => hp (hk.symm ▸ hm), hrest⟩
    · rw [dictInsert_cons_neg v b' rest hk, List.map_cons, List.nodup_cons]
      refine ⟨?_, ih hrest⟩
      intro hmem
      rcases (mem_keys_dictInsert rest).1 hmem with h' | h'
      · exact hk h'
      · exact hp h'

/-- A successful lookup exhibits a stored entry. -/
lemma lookupList_mem {α β : Type} [DecidableEq α] {k : α} {v : β} :
    ∀ (l : List (α × β)), lookupList k l = some v → (k, v) ∈ l := by
  intro l
  induction l with
  | nil => intro h; simp [lookupList] at h
  | cons p rest ih =>
    obtain ⟨a', b'⟩ := p
    intro h
    simp only [lookupList] at h
    by_cases hk : a' = k
    · rw [if_pos hk] at h
      have hb : b' = v := Option.some.inj h
      subst hk
      subst hb
      exact List.mem_cons_self _ _
    · rw [if_neg hk] at h
      exact List.mem_cons_of_mem _ (ih h)

/-- A lookup succeeds exactly when the key is stored. -/
lemma lookupList_isSome_iff {α β : Type} [DecidableEq α] {k : α} :
    ∀ (l : List (α × β)), (lookupList k l).isSome ↔ k ∈ l.map Prod.fst := by
  intro l
  induction l with
  | nil => simp [lookupList]
  | cons p rest ih =>
    obtain ⟨a', b'⟩ := p
    simp only [lookupList, List.map_cons, List.mem_cons]
    by_cases hk : a' = k
    · rw [if_pos hk]
      simp [hk]
    · rw [if_neg hk, ih]
      constructor
      · exact fun h => Or.inr h
      · rintro (h | h)
        · exact absurd h.symm hk
        · exact h

/-- Unfolding the declaration pass over one line. -/
lemma collectVariables_cons (vars : List (List Char × VarInfo)) (i : Nat)
    (l : List Char) (rest : List (List Char)) :
    collectVariables vars i (l :: rest) =
      match declInfo l with
      | some (name, col, value) =>
        collectVariables (dictInsert name (i, col, value) vars) (i + 1) rest
      | none => collectVariables vars (i + 1) rest := rfl

/-- The declaration pass keeps the stored names distinct. -/
lemma collectVariables_keys_nodup :
    ∀ (ls : List (List Char)) (i : Nat) (vars : List (List Char × VarInfo)),
      (vars.map Prod.fst).Nodup → ((collectVariables vars i ls).map Prod.fst).Nodup := by
  intro ls
  induction ls with
  | nil => intro i vars h; exact h
  | cons l rest ih =>
    intro i vars h
    rw [collectVariables_cons]
    cases hd : declInfo l with
    | none => exact ih (i + 1) vars h
    | some info =>
      obtain ⟨n, c, v⟩ := info
      exact ih (i + 1) _ (dictInsert_keys_nodup vars h)

/-- Lines declaring other names do not disturb a name's binding. -/
lemma collectVariables_lookup_notin {n : List Char} :
    ∀ (ls : List (List Char)) (i : Nat) (vars : List (List Char × VarInfo)),
      (∀ k raw, ls.get? k = some raw → ∀ c v, declInfo raw ≠ some (n, c, v)) →
      lookupList n (collectVariables vars i ls) = lookupList n vars := by
  intro ls
  induction ls with
  | nil => intro i vars _; rfl
  | cons l rest ih =>
    intro i vars hno
    have hshift : ∀ k raw, rest.get? k = some raw → ∀ c v, declInfo raw ≠ some (n, c, v) :=
      fun k raw hk => hno (k + 1) raw (by simpa using hk)
    rw [collectVariables_cons]
    cases hd : declInfo l with
    | none => exact ih (i + 1) vars hshift
    | some info =>
      obtain ⟨n', c, v⟩ := info
      have hne : n ≠ n' := by
        intro he
        exact hno 0 l rfl c v (by rw [hd, he])
      rw [ih (i + 1) _ hshift, lookup_dictInsert_ne _ hne]

/-- A declaration with no later re-declaration of the same name determines
the stored binding (last write wins). -/
lemma collectVariables_lookup_last {n : List Char} {c : Int} {v : List Char} :
    ∀ (ls : List (List Char)) (ln : Nat) (i : Nat)
      (vars : List (List Char × VarInfo)) (raw : List Char),
      ls.get? ln = some raw → declInfo raw = some (n, c, v) →
      (∀ k raw2, ln < k → ls.get? k = some raw2 →
        ∀ c2 v2, declInfo raw2 ≠ some (n, c2, v2)) →
      lookupList n (collectVariables vars i ls) = some (i + ln, c, v) := by
  intro ls
  induction ls with
  | nil => intro ln i vars raw h; simp at h
  | cons l rest ih =>
    intro ln i vars raw hget hdecl hlast
    cases ln with
    | zero =>
      have hl : l = raw := by simpa using hget
      subst hl
      rw [collectVariables_cons, hdecl]
      have hshift : ∀ k raw2, rest.get? k = some raw2 →
          ∀ c2 v2, declInfo raw2 ≠ some (n, c2, v2) :=
        fun k raw2 hk => hlast (k + 1) raw2 (Nat.succ_pos k) (by simpa using hk)
      rw [collectVariables_lookup_notin rest (i + 1) _ hshift, lookup_dictInsert_self]
      simp
    | succ m =>
      have hget' : rest.get? m = some raw := by simpa using hget
      have hlast' : ∀ k raw2, m < k → rest.get? k = some raw2 →
          ∀ c2 v2, declInfo raw2 ≠ some (n, c2, v2) :=
        fun k raw2 hm hk => hlast (k + 1) raw2 (by omega) (by simpa using hk)
      have harith : i + 1 + m = i + (m + 1) := by omega
      rw [collectVariables_cons]
      cases hd : declInfo l with
      | none =>
        have := ih m (i + 1) vars raw hget' hdecl hlast'
        rwa [harith] at this
      | some info =>
        obtain ⟨n', c', v'⟩ := info
        have := ih m (i + 1) (dictInsert n' (i, c', v') vars) raw hget' hdecl hlast'
        rwa [harith] at this

/-- Every binding the declaration pass stores comes from some processed
line recognized by `declInfo` at that line's index. -/
lemma collectVariables_sound (lines : List (List Char)) :
    ∀ (ls : List (List Char)) (i : Nat) (vars : List (List Char × VarInfo)),
      (∀ k raw, ls.get? k = some raw → lines.get? (i + k) = some raw) →
      (∀ e ∈ vars, ∃ raw, lines.get? e.2.1 = some raw ∧
          declInfo raw = some (e.1, e.2.2.1, e.2.2.2)) →
      ∀ e ∈ collectVariables vars i ls, ∃ raw, lines.get? e.2.1 = some raw ∧
          declInfo raw = some (e.1, e.2.2.1, e.2.2.2) := by
  intro ls
  induction ls with
  | nil => intro i vars _ hv e he; exact hv e he
  | cons l rest ih =>
    intro i vars hk hv e he
    rw [collectVariables_cons] at he
    have hkshift : ∀ k raw, rest.get? k = some raw → lines.get? (i + 1 + k) = some raw := by
      intro k raw h
      have := hk (k + 1) raw (by simpa using h)
      rwa [show i + (k + 1) = i + 1 + k by omega] at this
    cases hd : declInfo l with
    | none =>
      rw [hd] at he
      exact ih (i + 1) vars hkshift hv e he
    | some info =>
      obtain ⟨n, c, v⟩ := info
      rw [hd] at he
      refine ih (i + 1) _ hkshift ?_ e he
      intro e' he'
      rcases mem_dictInsert _ e' he' with h | h
      · subst h
        refine ⟨l, ?_, hd⟩
        have := hk 0 l rfl
        simpa using this
      · exact hv e' h

/-! ### Diagnostic-pass lemmas -/

/-- The undefined-identifier message determines the offending token text. -/
lemma undefinedMessage_inj {w w' : List Char}
    (h : undefinedMessage w = undefinedMessage w') : w = w' := by
  unfold undefinedMessage at h
  injection h with h
  have h1 := List.append_cancel_left h
  injection h1 with _ h2
  exact List.append_cancel_right h2

/-- The acceptance test spelled out as the four membership checks. -/
lemma acceptedWord_false_iff (vars : List (List Char × VarInfo)) (w : List Char) :
    acceptedWord vars w = false ↔
      ¬(w ∈ keywordsData ∨ w.map Char.toUpper ∈ keywordsData ∨
        w ∈ vars.map Prod.fst ∨ w ∈ builtinNames) := by
  simp only [acceptedWord, Bool.or_eq_false_iff, decide_eq_false_iff_not,
    List.mem_append]
  tauto

/-- Unfolding the validation pass over one line. -/
lemma validateLines_cons (vars : List (List Char × VarInfo)) (i : Nat)
    (l : List Char) (rest : List (List Char)) :
    validateLines vars i (l :: rest) =
      lineDiagnostics vars i l ++ validateLines vars (i + 1) rest := rfl

/-- Every diagnostic of a line arises from a flagged token of that line. -/
lemma mem_lineDiagnostics {vars : List (List Char × VarInfo)} {ln : Nat}
    {raw : List Char} {d : Diagnostic} (h : d ∈ lineDiagnostics vars ln raw) :
    ∃ t ∈ tokenize (pyStrip raw),
      acceptedWord vars t.text = false ∧ d = mkDiagnostic ln t := by
  unfold lineDiagnostics at h
  by_cases hskip : (pyStrip raw).isEmpty = true ∨
      List.isPrefixOf "//".data (pyStrip raw) = true
  · rw [if_pos (by simpa using hskip)] at h
    simp at h
  · rw [if_neg (by simpa using hskip)] at h
    rcases List.mem_filterMap.1 h with ⟨t, ht, hft⟩
    cases hacc : acceptedWord vars t.text
    · rw [hacc] at hft
      simp at hft
      exact ⟨t, ht, hacc, hft.symm⟩
    · rw [hacc] at hft
      simp at hft

/-- Diagnostics of one line carry that line number. -/
lemma lineDiagnostics_line {vars : List (List Char × VarInfo)} {ln : Nat}
    {raw : List Char} {d : Diagnostic} (h : d ∈ lineDiagnostics vars ln raw) :
    d.range.start.line = ln := by
  rcases mem_lineDiagnostics h with ⟨t, _, _, rfl⟩
  rfl

/-- Equal diagnostics built on one line come from equally placed tokens. -/
lemma mkDiagnostic_start {ln : Nat} {u t : Token}
    (h : mkDiagnostic ln u = mkDiagnostic ln t) : u.start = t.start := by
  have h' := congrArg (fun d => d.range.start.character) h
  simpa [mkDiagnostic] using h'

/-- Counting a flagged token's diagnostic among the diagnostics produced
from a separated token list: exactly one. -/
lemma count_filterMap_tokens (vars : List (List Char × VarInfo)) (ln : Nat)
    (t : Token) :
    ∀ (ts : List Token), ts.Pairwise (fun a b => a.stop < b.start) →
    t ∈ ts → acceptedWord vars t.text = false →
    List.count (mkDiagnostic ln t)
      (ts.filterMap (fun u =>
        if acceptedWord vars u.text then none else some (mkDiagnostic ln u))) = 1 := by
  intro ts
  induction ts with
  | nil => intro _ ht; simp at ht
  | cons u us ih =>
    intro hpw ht hf
    rcases List.pairwise_cons.1 hpw with ⟨hu, hus⟩
    rcases List.mem_cons.1 ht with rfl | htu
    · rw [List.filterMap_cons, hf]
      simp only [Bool.false_eq_true, if_false]
      rw [List.count_cons_self]
      have hz : List.count (mkDiagnostic ln t)
          (us.filterMap (fun u =>
            if acceptedWord vars u.text then none else some (mkDiagnostic ln u))) = 0 := by
        rw [List.count_eq_zero]
        intro hmem
        rcases List.mem_filterMap.1 hmem with ⟨v, hv, hfv⟩
        have hvne : mkDiagnostic ln v = mkDiagnostic ln t := by
          cases haccv : acceptedWord vars v.text <;> rw [haccv] at hfv <;> simp at hfv
          exact hfv
        have hstart := mkDiagnostic_start hvne
        have := hu v hv
        have : t.start ≤ t.stop := Nat.le_add_right _ _
        omega
      omega
    · rw [List.filterMap_cons]
      cases haccu : acceptedWord vars u.text
      · simp only [Bool.false_eq_true, if_false]
        have hne : ¬(mkDiagnostic ln u = mkDiagnostic ln t) := by
          intro he
          have hstart := mkDiagnostic_start he
          have := hu t htu
          have : u.start ≤ u.stop := Nat.le_add_right _ _
          omega
        rw [List.count_cons_of_ne (fun he => hne he.symm)]
        exact ih hus htu hf
      · simp only [if_true]
        exact ih hus htu hf

/-- Diagnostics of the validation pass start at or past the pass's first
line number. -/
lemma validateLines_line_lb (vars : List (List Char × VarInfo)) :
    ∀ (ls : List (List Char)) (i : Nat) {d : Diagnostic},
      d ∈ validateLines vars i ls → i ≤ d.range.start.line := by
  intro ls
  induction ls with
  | nil => intro i d h; simp [validateLines] at h
  | cons l rest ih =>
    intro i d h
    rw [validateLines_cons] at h
    rcases List.mem_append.1 h with h | h
    · exact le_of_eq (lineDiagnostics_line h).symm
    · have := ih (i + 1) h
      omega

/-- Counting a line-`ln` diagnostic over the whole validation pass reduces
to counting it on line `ln` alone. -/
lemma count_validateLines (vars : List (List Char × VarInfo)) (d : Diagnostic) :
    ∀ (ls : List (List Char)) (i ln : Nat) (raw : List Char),
      ls.get? ln = some raw → d.range.start.line = i + ln →
      List.count d (validateLines vars i ls) =
        List.count d (lineDiagnostics vars (i + ln) raw) := by
  intro ls
  induction ls with
  | nil => intro i ln raw h; simp at h
  | cons l rest ih =>
    intro i ln raw hget hline
    rw [validateLines_cons, List.count_append]
    cases ln with
    | zero =>
      have hl : l = raw := by simpa using hget
      subst hl
      have hz : List.count d (validateLines vars (i + 1) rest) = 0 := by
        rw [List.count_eq_zero]
        intro hmem
        have := validateLines_line_lb vars rest (i + 1) hmem
        omega
      rw [hz]
      simp
    | succ m =>
      have hz : List.count d (lineDiagnostics vars i l) = 0 := by
        rw [List.count_eq_zero]
        intro hmem
        have := lineDiagnostics_line hmem
        omega
      have hget' : rest.get? m = some raw := by simpa using hget
      have hrec := ih (i + 1) m raw hget' (by omega)
      rw [hz, hrec, show i + 1 + m = i + (m + 1) by omega]
      omega

/-- Membership over the whole validation pass reduces to the named line. -/
lemma mem_validateLines_iff (vars : List (List Char × VarInfo)) (d : Diagnostic)
    (ls : List (List Char)) (i ln : Nat) (raw : List Char)
    (hget : ls.get? ln = some raw) (hline : d.range.start.line = i + ln) :
    (d ∈ validateLines vars i ls ↔ d ∈ lineDiagnostics vars (i + ln) raw) := by
  have h := count_validateLines vars d ls i ln raw hget hline
  constructor
  · intro hm
    have := List.count_pos_iff.2 hm
    exact List.count_pos_iff.1 (by omega)
  · intro hm
    have := List.count_pos_iff.2 hm
    exact List.count_pos_iff.1 (by omega)

/-! ### Character and stripped-line lemmas -/

/-- `Char.ofNat` on an ASCII uppercase code point keeps the code point. -/
lemma toNat_ofNat_upper {n : Nat} (h1 : 65 ≤ n) (h2 : n ≤ 90) :
    (Char.ofNat n).toNat = n := by
  have hv : n.isValidChar := Or.inl (by omega)
  simp [Char.ofNat, hv]
  rfl

/-- Only a whitespace character can uppercase to the space character. -/
lemma toUpper_eq_space {c : Char} (h : c.toUpper = ' ') : pyIsSpace c = true := by
  simp only [Char.toUpper] at h
  by_cases hr : c.toNat ≥ 97 ∧ c.toNat ≤ 122
  · exfalso
    rw [if_pos hr] at h
    have hc := congrArg Char.toNat h
    rw [toNat_ofNat_upper (by omega) (by omega)] at hc
    have hsp : (' ' : Char).toNat = 32 := rfl
    omega
  · rw [if_neg hr] at h
    rw [h]
    decide

/-- Uppercasing fixes every whitespace character. -/
lemma toUpper_of_space {c : Char} (h : pyIsSpace c = true) : c.toUpper = c := by
  simp [pyIsSpace] at h
  rcases h with ((((rfl | rfl) | rfl) | rfl) | rfl) | rfl <;> decide

/-- A character whose uppercase form is not whitespace is not whitespace. -/
lemma not_space_of_toUpper {c x : Char} (hx : c.toUpper = x)
    (hxs : pyIsSpace x = false) : pyIsSpace c = false := by
  by_cases hc : pyIsSpace c = true
  · have h1 : c.toUpper = c := toUpper_of_space hc
    rw [h1] at hx
    subst hx
    rw [hc] at hxs
    exact Bool.noConfusion hxs
  · simpa using hc

/-- A stripped line has no nonempty all-whitespace suffix (its last
character, when it exists, is not whitespace). -/
lemma pyStrip_drop_not_all_space (raw : List Char) (j : Nat)
    (hne : (pyStrip raw).drop j ≠ []) :
    ¬ ∀ c ∈ (pyStrip raw).drop j, pyIsSpace c = true := by
  intro hall
  have hs : pyStrip raw =
      ((raw.dropWhile pyIsSpace).reverse.dropWhile pyIsSpace).reverse := rfl
  have hzne : (raw.dropWhile pyIsSpace).reverse.dropWhile pyIsSpace ≠ [] := by
    intro h0
    rw [hs, h0] at hne
    simp at hne
  obtain ⟨d, ds, hz⟩ := List.exists_cons_of_ne_nil hzne
  have hd : pyIsSpace d = false := dropWhile_head_false _ hz
  have h1 : (pyStrip raw).getLast? = some d := by
    rw [hs, List.getLast?_reverse, hz]
    rfl
  have h2 : ((pyStrip raw).drop j).getLast? = (pyStrip raw).getLast? := by
    conv_rhs => rw [← List.take_append_drop j (pyStrip raw)]
    rw [List.getLast?_append_of_ne_nil _ hne]
  have h3 : d ∈ (pyStrip raw).drop j := by
    have hlast := h2.trans h1
    cases hdrop : (pyStrip raw).drop j with
    | nil => exact absurd hdrop hne
    | cons e es =>
      rw [hdrop] at hlast
      rw [List.getLast?_eq_getLast _ (List.cons_ne_nil e es)] at hlast
      have := List.getLast_mem (List.cons_ne_nil e es)
      rw [Option.some.injEq] at hlast
      rw [← hlast]
      exact this
  have := hall d h3
  rw [this] at hd
  exact Bool.noConfusion hd

/-! ### Substring search (`str.find`) lemmas -/

/-- A successful `findSub` returns the first occurrence index. -/
lemma findSub_spec {pat : List Char} :
    ∀ (l : List Char) (j : Nat), findSub pat l = some j →
      List.IsPrefix pat (l.drop j) ∧ ∀ i < j, ¬ List.IsPrefix pat (l.drop i) := by
  intro l
  induction l with
  | nil =>
    intro j h
    unfold findSub at h
    by_cases hp : List.isPrefixOf pat ([] : List Char) = true
    · rw [if_pos hp] at h
      injection h with h
      subst h
      exact ⟨List.isPrefixOf_iff_prefix.1 hp, by omega⟩
    · rw [if_neg hp] at h
      exact absurd h (by simp)
  | cons c rest ih =>
    intro j h
    unfold findSub at h
    by_cases hp : List.isPrefixOf pat (c :: rest) = true
    · rw [if_pos hp] at h
      injection h with h
      subst h
      exact ⟨List.isPrefixOf_iff_prefix.1 hp, by omega⟩
    · rw [if_neg hp] at h
      rcases Option.map_eq_some'.1 h with ⟨j', hj', rfl⟩
      rcases ih j' hj' with ⟨h1, h2⟩
      constructor
      · simpa using h1
      · intro i hi
        cases i with
        | zero =>
          simpa using fun hpre => hp (List.isPrefixOf_iff_prefix.2 hpre)
        | succ i' =>
          simpa using h2 i' (by omega)

/-- `findSub` succeeds whenever the pattern occurs somewhere. -/
lemma findSub_isSome {pat : List Char} :
    ∀ (l : List Char) (j : Nat), List.IsPrefix pat (l.drop j) →
      (findSub pat l).isSome := by
  intro l
  induction l with
  | nil =>
    intro j h
    simp only [List.drop_nil] at h
    rw [List.prefix_nil.1 h]
    simp [findSub]
  | cons c rest ih =>
    intro j h
    unfold findSub
    by_cases hp : List.isPrefixOf pat (c :: rest) = true
    · simp [hp]
    · rw [if_neg hp]
      cases j with
      | zero => exact absurd (List.isPrefixOf_iff_prefix.2 (by simpa using h)) hp
      | succ j' =>
        rw [List.drop_succ_cons] at h
        have := ih j' h
        simpa using this

/-! ### Declaration-line shape lemmas -/

/-- A line passing `line.upper().startswith("VAR ")` splits off four
characters uppercasing to `V`, `A`, `R` and the space. -/
lemma prefix_VAR_shape {line : List Char}
    (h : List.isPrefixOf "VAR ".data (line.map Char.toUpper) = true) :
    ∃ c0 c1 c2 c3 rest, line = c0 :: c1 :: c2 :: c3 :: rest ∧
      c0.toUpper = 'V' ∧ c1.toUpper = 'A' ∧ c2.toUpper = 'R' ∧ c3.toUpper = ' ' := by
  have hdata : "VAR ".data = ['V', 'A', 'R', ' '] := rfl
  rw [hdata] at h
  cases line with
  | nil => simp [List.isPrefixOf] at h
  | cons c0 l0 =>
    cases l0 with
    | nil => simp [List.isPrefixOf] at h
    | cons c1 l1 =>
      cases l1 with
      | nil => simp [List.isPrefixOf] at h
      | cons c2 l2 =>
        cases l2 with
        | nil => simp [List.isPrefixOf] at h
        | cons c3 rest =>
          simp only [List.map_cons, List.isPrefixOf, Bool.and_eq_true,
            beq_iff_eq] at h
          exact ⟨c0, c1, c2, c3, rest, rfl,
            h.1.symm, h.2.1.symm, h.2.2.1.symm, h.2.2.2.1.symm⟩

/-- A recognized declaration line passes the `startswith` test. -/
lemma declInfo_isSome_startswith {raw : List Char} (h : (declInfo raw).isSome) :
    List.isPrefixOf "VAR ".data ((pyStrip raw).map Char.toUpper) = true := by
  by_cases hp : List.isPrefixOf "VAR ".data ((pyStrip raw).map Char.toUpper) = true
  · exact hp
  · exfalso
    unfold declInfo at h
    rw [if_neg hp] at h
    simp at h

/-- The second part produced by `split(maxsplit=2)` occurs in the line. -/
lemma splitMax2_second {line w1 w2 : List Char} {tl : List (List Char)}
    (h : splitMax2 line = w1 :: w2 :: tl) :
    ∃ j, List.IsPrefix w2 (line.drop j) := by
  simp only [splitMax2] at h
  by_cases h0 : (line.dropWhile pyIsSpace).isEmpty = true
  · rw [if_pos h0] at h
    exact absurd h (by simp)
  · rw [if_neg h0] at h
    by_cases hr1 : (((line.dropWhile pyIsSpace).dropWhile
        (fun c => !(pyIsSpace c))).dropWhile pyIsSpace).isEmpty = true
    · rw [if_pos hr1] at h
      exact absurd h (by simp)
    · rw [if_neg hr1] at h
      have hw2 : w2 = (((line.dropWhile pyIsSpace).dropWhile
          (fun c => !(pyIsSpace c))).dropWhile pyIsSpace).takeWhile
            (fun c => !(pyIsSpace c)) := by
        by_cases hr2 : ((((((line.dropWhile pyIsSpace).dropWhile
            (fun c => !(pyIsSpace c))).dropWhile pyIsSpace)).dropWhile
            (fun c => !(pyIsSpace c))).dropWhile pyIsSpace).isEmpty = true
        · rw [if_pos hr2] at h
          obtain ⟨h1, h2, h3⟩ := by simpa using h
          exact h2.symm
        · rw [if_neg hr2] at h
          obtain ⟨h1, h2, h3⟩ := by simpa using h
          exact h2.symm
      have hsuf : ((line.dropWhile pyIsSpace).dropWhile
          (fun c => !(pyIsSpace c))).dropWhile pyIsSpace <:+ line :=
        (List.dropWhile_suffix _).trans
          ((List.dropWhile_suffix _).trans (List.dropWhile_suffix _))
      obtain ⟨t, ht⟩ := hsuf
      refine ⟨t.length, ?_⟩
      rw [← ht, List.drop_left, hw2]
      exact List.takeWhile_prefix _

/-- The stored declaration column is the index of the first occurrence of
the declared name as a substring of the stripped line (Python
`line.find(name)`). -/
lemma declInfo_col {raw n : List Char} {c : Int} {v : List Char}
    (h : declInfo raw = some (n, c, v)) :
    ∃ j : Nat, c = (j : Int) ∧ List.IsPrefix n ((pyStrip raw).drop j) ∧
      ∀ i < j, ¬ List.IsPrefix n ((pyStrip raw).drop i) := by
  unfold declInfo at h
  by_cases hp : List.isPrefixOf "VAR ".data ((pyStrip raw).map Char.toUpper) = true
  · rw [if_pos hp] at h
    cases hsp : splitMax2 (pyStrip raw) with
    | nil => rw [hsp] at h; simp at h
    | cons w1 tl =>
      cases tl with
      | nil => rw [hsp] at h; simp at h
      | cons w2 tl2 =>
        rw [hsp] at h
        simp only [Option.some.injEq, Prod.mk.injEq] at h
        obtain ⟨hn, hc, hv⟩ := h
        subst hn
        obtain ⟨j0, hocc⟩ := splitMax2_second hsp
        have hsome := findSub_isSome (pyStrip raw) j0 hocc
        obtain ⟨j, hj⟩ := Option.isSome_iff_exists.1 hsome
        have hcj : c = (j : Int) := by
          rw [← hc]
          unfold pyFind
          rw [hj]
        obtain ⟨h1, h2⟩ := findSub_spec (pyStrip raw) j hj
        exact ⟨j, hcj, h1, h2⟩
  · rw [if_neg hp] at h
    simp at h

/-- On a line passing the `startswith` test, the declaration pass always
recognizes a declaration: the keyword occupies exactly the first three
columns, the name is the following word and the value is the remainder
(defaulting to `"undefined"`). -/
lemma declInfo_eq_of_startswith {raw : List Char}
    (h : List.isPrefixOf "VAR ".data ((pyStrip raw).map Char.toUpper) = true) :
    declInfo raw = some
      ((((pyStrip raw).drop 3).dropWhile pyIsSpace).takeWhile (fun c => !(pyIsSpace c)),
       pyFind (pyStrip raw)
         ((((pyStrip raw).drop 3).dropWhile pyIsSpace).takeWhile (fun c => !(pyIsSpace c))),
       if (((((pyStrip raw).drop 3).dropWhile pyIsSpace).dropWhile
           (fun c => !(pyIsSpace c))).dropWhile pyIsSpace).isEmpty
       then "undefined".data
       else ((((pyStrip raw).drop 3).dropWhile pyIsSpace).dropWhile
           (fun c => !(pyIsSpace c))).dropWhile pyIsSpace) := by
  obtain ⟨c0, c1, c2, c3, rest, hline, h0, h1, h2, h3⟩ := prefix_VAR_shape h
  have s0 : pyIsSpace c0 = false := not_space_of_toUpper h0 (by decide)
  have s1 : pyIsSpace c1 = false := not_space_of_toUpper h1 (by decide)
  have s2 : pyIsSpace c2 = false := not_space_of_toUpper h2 (by decide)
  have s3 : pyIsSpace c3 = true := toUpper_eq_space h3
  have eDrop3 : (pyStrip raw).drop 3 = c3 :: rest := by rw [hline]; rfl
  have eR1 : ((pyStrip raw).drop 3).dropWhile pyIsSpace = rest.dropWhile pyIsSpace := by
    rw [eDrop3, List.dropWhile_cons_of_pos s3]
  have hr1ne : rest.dropWhile pyIsSpace ≠ [] := by
    intro hnil
    apply pyStrip_drop_not_all_space raw 3 (by rw [eDrop3]; simp)
    intro c hc
    rw [eDrop3] at hc
    rcases List.mem_cons.1 hc with rfl | hc
    · exact s3
    · exact List.dropWhile_eq_nil_iff.1 hnil c hc
  have e0 : (pyStrip raw).dropWhile pyIsSpace = pyStrip raw := by
    rw [hline]
    exact List.dropWhile_cons_of_neg (by simp [s0])
  have eW1 : (pyStrip raw).takeWhile (fun c => !(pyIsSpace c)) = [c0, c1, c2] := by
    rw [hline, List.takeWhile_cons_of_pos (by simp [s0]),
        List.takeWhile_cons_of_pos (by simp [s1]),
        List.takeWhile_cons_of_pos (by simp [s2]),
        List.takeWhile_cons_of_neg (by simp [s3])]
  have eD1 : (pyStrip raw).dropWhile (fun c => !(pyIsSpace c)) = c3 :: rest := by
    rw [hline, List.dropWhile_cons_of_pos (by simp [s0]),
        List.dropWhile_cons_of_pos (by simp [s1]),
        List.dropWhile_cons_of_pos (by simp [s2]),
        List.dropWhile_cons_of_neg (by simp [s3])]
  have eR1' : ((pyStrip raw).dropWhile (fun c => !(pyIsSpace c))).dropWhile pyIsSpace
      = rest.dropWhile pyIsSpace := by
    rw [eD1, List.dropWhile_cons_of_pos s3]
  have hempty : (pyStrip raw).isEmpty = false := by rw [hline]; rfl
  have hr1em : (rest.dropWhile pyIsSpace).isEmpty = false := by
    rcases hq : rest.dropWhile pyIsSpace with _ | ⟨d, ds⟩
    · exact absurd hq hr1ne
    · rfl
  unfold declInfo
  rw [if_pos h]
  simp only [splitMax2]
  rw [e0, hempty]
  simp only [Bool.false_eq_true, if_false]
  rw [eW1, eR1', hr1em]
  simp only [Bool.false_eq_true, if_false]
  rw [eR1]
  by_cases hr2 : (((rest.dropWhile pyIsSpace).dropWhile
      (fun c => !(pyIsSpace c))).dropWhile pyIsSpace).isEmpty = true
  · rw [if_pos hr2, if_pos hr2]
  · rw [if_neg hr2, if_neg hr2]

/-- Every validation diagnostic's message names some flagged word. -/
lemma validateLines_message (vars : List (List Char × VarInfo)) :
    ∀ (ls : List (List Char)) (i : Nat) (d : Diagnostic), d ∈ validateLines vars i ls →
      ∃ w : List Char, acceptedWord vars w = false ∧ d.message = undefinedMessage w := by
  intro ls
  induction ls with
  | nil => intro i d h; simp [validateLines] at h
  | cons l rest ih =>
    intro i d h
    rw [validateLines_cons] at h
    rcases List.mem_append.1 h with h | h
    · obtain ⟨t, _, hacc, rfl⟩ := mem_lineDiagnostics h
      exact ⟨t.text, hacc, rfl⟩
    · exact ih (i + 1) d h

/-- Every stored symbol of `parse_document` comes from a line recognized
by the declaration pass at the stored line number. -/
lemma parse_vars_sound {text : String} {n : List Char} {info : VarInfo}
    (h : lookupList n (parse_document text).1 = some info) :
    ∃ raw, (splitLines text.data).get? info.1 = some raw ∧
      declInfo raw = some (n, info.2.1, info.2.2) := by
  have hmem : (n, info) ∈ collectVariables [] 0 (splitLines text.data) :=
    lookupList_mem _ h
  exact collectVariables_sound (splitLines text.data) (splitLines text.data) 0 []
    (fun k raw hk => by simpa using hk) (by simp) (n, info) hmem

/-! ### The claims -/

/-- C9: `analyze` is a deterministic pure function: identical input texts
yield identical symbol tables and identical, order-stable diagnostic
lists.  In this embedding `parse_document` is a total function (no
`Option`/`Except` in its type), certifying the absence of any exception
path on malformed input. -/
theorem claim9_deterministic (t1 t2 : String) (h : t1 = t2) :
    parse_document t1 = parse_document t2 := by rw [h]

theorem claim9_witness :
    parse_document "VAR x = @ 1" = parse_document "VAR x = @ 1" :=
  claim9_deterministic "VAR x = @ 1" "VAR x = @ 1" rfl

/-- C2: the symbol table stores at most one entry per name; a name whose
last declaration is on line `ln` is stored with that line's position and
value; and no diagnostic of the same document flags a declared name. -/
theorem claim2_last_write_wins (text : String) (n : List Char) (ln : Nat)
    (c : Int) (v rawLine : List Char)
    (hline : (splitLines text.data).get? ln = some rawLine)
    (hdecl : declInfo rawLine = some (n, c, v))
    (hlast : ∀ k raw2, ln < k → (splitLines text.data).get? k = some raw2 →
      ∀ c2 v2, declInfo raw2 ≠ some (n, c2, v2)) :
    ((parse_document text).1.map Prod.fst).Nodup ∧
    lookupList n (parse_document text).1 = some (ln, c, v) ∧
    ∀ d ∈ (parse_document text).2, d.message ≠ undefinedMessage n := by
  have hvars : (parse_document text).1 = collectVariables [] 0 (splitLines text.data) := rfl
  have hdiags : (parse_document text).2 =
      validateLines (collectVariables [] 0 (splitLines text.data)) 0 (splitLines text.data) := rfl
  have hlk := collectVariables_lookup_last (splitLines text.data) ln 0 [] rawLine
    hline hdecl hlast
  refine ⟨?_, ?_, ?_⟩
  · rw [hvars]
    exact collectVariables_keys_nodup _ 0 [] (by simp)
  · rw [hvars]
    simpa using hlk
  · intro d hd he
    rw [hdiags] at hd
    have hkey : n ∈ (collectVariables [] 0 (splitLines text.data)).map Prod.fst :=
      (lookupList_isSome_iff _).1 (by rw [hlk]; rfl)
    obtain ⟨w, hw, hmsg⟩ := validateLines_message _ _ _ _ hd
    have hwn : w = n := undefinedMessage_inj (hmsg.symm.trans he)
    subst hwn
    have hacc : acceptedWord (collectVariables [] 0 (splitLines text.data)) w = true := by
      have hm : w ∈ (collectVariables [] 0 (splitLines text.data)).map Prod.fst
          ++ builtinNames := List.mem_append.2 (Or.inl hkey)
      simp only [acceptedWord, Bool.or_eq_true, decide_eq_true_eq]
      tauto
    rw [hacc] at hw
    exact Bool.noConfusion hw

theorem claim2_witness :
    lookupList "x".data (parse_document "VAR x 1\nVAR x 2").1
      = some (1, (4 : Int), "2".data) :=
  (claim2_last_write_wins "VAR x 1\nVAR x 2" "x".data 1 4 "2".data "VAR x 2".data
    (by decide) (by decide)
    (by
      intro k raw2 hk hget c2 v2 hdecl
      obtain ⟨hlt, _⟩ := List.get?_eq_some.1 hget
      have hlen : (splitLines "VAR x 1\nVAR x 2".data).length = 2 := by decide
      omega)).2.1

/-- C3 (counterexample): with no snapshot stored for the document, the
completion resolver does not return an absent/empty value — it offers the
full static keyword and builtin candidate lists. -/
theorem claim3_counterexample :
    completionsR [] "file:///doc.myopl" ≠ [] ∧
    (completionsR [] "file:///doc.myopl").length = 31 := by
  refine ⟨by decide, by decide⟩

/-- C3 (amended): for a document identifier with no snapshot, definition
and hover return an absent value, never an error, and completion returns
exactly the static candidates (the same list as for an empty store, with
no variable entries). -/
theorem claim3_unknown_document (store : DocumentStates) (uri : String)
    (pos : CursorPos) (h : lookupList uri store = none) :
    definitionR store uri pos = Except.ok none ∧
    hoverR store uri pos = Except.ok none ∧
    completionsR store uri = completionsR [] uri := by
  refine ⟨?_, ?_, ?_⟩
  · simp [definitionR, h]
  · simp [hoverR, h]
  · simp [completionsR, h, lookupList]

theorem claim3_witness :
    definitionR [("file:///a", ⟨"", []⟩)] "file:///b" ⟨0, 0⟩ = Except.ok none ∧
    hoverR [("file:///a", ⟨"", []⟩)] "file:///b" ⟨0, 0⟩ = Except.ok none ∧
    completionsR [("file:///a", ⟨"", []⟩)] "file:///b" = completionsR [] "file:///b" :=
  claim3_unknown_document [("file:///a", ⟨"", []⟩)] "file:///b" ⟨0, 0⟩ (by decide)

/-- C4 (counterexample): on `VAR AR = 1` the name token `AR` sits at
column 4, but the stored declaration column is 1 — `line.find` matched
the earlier occurrence of `AR` inside the keyword `VAR`. -/
theorem claim4_counterexample :
    lookupList "AR".data (parse_document "VAR AR = 1").1
      = some (0, (1 : Int), "= 1".data) ∧
    Token.mk 4 "AR".data ∈ tokenize (pyStrip "VAR AR = 1".data) ∧
    (1 : Int) ≠ (4 : Int) := by
  refine ⟨by decide, by decide, by decide⟩

/-- C4 (amended): every stored Symbol's declaration column is the index of
the FIRST occurrence of the name as a substring of the trimmed declaration
line — which is the name token's column only when the name does not occur
earlier in the line. -/
theorem claim4_declaration_column (text : String) (n : List Char) (ln : Nat)
    (c : Int) (v : List Char)
    (h : lookupList n (parse_document text).1 = some (ln, c, v)) :
    ∃ rawLine, (splitLines text.data).get? ln = some rawLine ∧
      ∃ j : Nat, c = (j : Int) ∧ List.IsPrefix n ((pyStrip rawLine).drop j) ∧
        ∀ i < j, ¬ List.IsPrefix n ((pyStrip rawLine).drop i) := by
  obtain ⟨raw, hget, hdecl⟩ := parse_vars_sound h
  exact ⟨raw, hget, declInfo_col hdecl⟩

theorem claim4_witness :
    ∃ rawLine, (splitLines "VAR AR = 1".data).get? 0 = some rawLine ∧
      ∃ j : Nat, (1 : Int) = (j : Int) ∧
        List.IsPrefix "AR".data ((pyStrip rawLine).drop j) ∧
        ∀ i < j, ¬ List.IsPrefix "AR".data ((pyStrip rawLine).drop i) :=
  claim4_declaration_column "VAR AR = 1" "AR".data 0 1 "= 1".data (by decide)

/-- C6: with a stored one-line document, a definition or hover request at
a line index beyond the end of the document faults (the Python handlers
index `doc.lines[pos.line]` unchecked, raising `IndexError`) instead of
returning the absent value the specification requires. -/
theorem claim6_out_of_range_fault :
    definitionR [("file:///doc.myopl",
        { text := "VAR x = 1", vars := [("x".data, (0, 4, "= 1".data))] })]
      "file:///doc.myopl" { line := 1, character := 0 } = Except.error "IndexError" ∧
    hoverR [("file:///doc.myopl",
        { text := "VAR x = 1", vars := [("x".data, (0, 4, "= 1".data))] })]
      "file:///doc.myopl" { line := 1, character := 0 } = Except.error "IndexError" := by
  refine ⟨rfl, rfl⟩

/-- C1: on a non-comment line, every identifier-grammar token that is
neither a keyword (exact or case-insensitive), a declared name, nor a
builtin name yields exactly one diagnostic — with the undefined-identifier
message, Error severity, and a range spanning exactly the token's columns —
while accepted tokens yield no diagnostic at their position. -/
theorem claim1_one_diagnostic_per_flagged_token (text : String) (ln : Nat)
    (rawLine : List Char) (t : Token)
    (hline : (splitLines text.data).get? ln = some rawLine)
    (htok : t ∈ tokenize (pyStrip rawLine))
    (hcomment : List.isPrefixOf "//".data (pyStrip rawLine) = false) :
    (¬ (t.text ∈ keywordsData ∨ t.text.map Char.toUpper ∈ keywordsData ∨
        t.text ∈ (parse_document text).1.map Prod.fst ∨ t.text ∈ builtinNames) →
      List.count
        { range := { start := { line := ln, character := (t.start : Int) },
                     stop := { line := ln, character := (t.start : Int) + t.text.length } },
          message := undefinedMessage t.text,
          severity := DiagnosticSeverity.Error,
          source := "MyOPL" }
        (parse_document text).2 = 1) ∧
    ((t.text ∈ keywordsData ∨ t.text.map Char.toUpper ∈ keywordsData ∨
        t.text ∈ (parse_document text).1.map Prod.fst ∨ t.text ∈ builtinNames) →
      ∀ d ∈ (parse_document text).2,
        ¬ (d.range.start.line = ln ∧ d.range.start.character = (t.start : Int))) := by
  have hvars : (parse_document text).1 = collectVariables [] 0 (splitLines text.data) := rfl
  have hdiags : (parse_document text).2 =
      validateLines (collectVariables [] 0 (splitLines text.data)) 0 (splitLines text.data) := rfl
  have hemp : (pyStrip rawLine).isEmpty = false := by
    rcases hq : pyStrip rawLine with _ | ⟨a, as⟩
    · rw [hq] at htok
      simp [tokenize, tokenizeAux] at htok
    · rfl
  have hcond : ((pyStrip rawLine).isEmpty ||
      List.isPrefixOf "//".data (pyStrip rawLine)) = false := by
    rw [hemp, hcomment]
    rfl
  have hLD : lineDiagnostics (collectVariables [] 0 (splitLines text.data)) ln rawLine =
      (tokenize (pyStrip rawLine)).filterMap (fun u =>
        if acceptedWord (collectVariables [] 0 (splitLines text.data)) u.text then none
        else some (mkDiagnostic ln u)) := by
    simp only [lineDiagnostics]
    rw [hcond]
    simp
  constructor
  · intro hflag
    rw [hvars] at hflag
    have hacc : acceptedWord (collectVariables [] 0 (splitLines text.data)) t.text = false := by
      rw [acceptedWord_false_iff]
      exact hflag
    show List.count (mkDiagnostic ln t) (parse_document text).2 = 1
    rw [hdiags]
    rw [count_validateLines _ _ (splitLines text.data) 0 ln rawLine hline
      (by simp [mkDiagnostic])]
    rw [Nat.zero_add, hLD]
    exact count_filterMap_tokens _ ln t _ (tokenize_pairwise _) htok hacc
  · intro hacc' d hd hcontra
    obtain ⟨hdl, hdc⟩ := hcontra
    rw [hdiags] at hd
    have hd' : d ∈ lineDiagnostics (collectVariables [] 0 (splitLines text.data)) ln rawLine := by
      have := (mem_validateLines_iff _ d (splitLines text.data) 0 ln rawLine hline
        (by rw [Nat.zero_add]; exact hdl)).1 hd
      rwa [Nat.zero_add] at this
    obtain ⟨t', ht', hacc2, rfl⟩ := mem_lineDiagnostics hd'
    have hstart : t'.start = t.start := by
      simpa [mkDiagnostic] using hdc
    have hte := tokenize_start_inj ht' htok hstart
    subst hte
    rw [hvars] at hacc'
    have haccT : acceptedWord (collectVariables [] 0 (splitLines text.data)) t'.text = true := by
      rcases Bool.dichotomy (acceptedWord (collectVariables [] 0 (splitLines text.data))
          t'.text) with hF | hT
      · exact absurd hacc' ((acceptedWord_false_iff _ _).1 hF)
      · exact hT
    rw [haccT] at hacc2
    exact Bool.noConfusion hacc2

theorem claim1_witness :
    List.count
      { range := { start := { line := 2, character := (0 : Int) },
                   stop := { line := 2, character := (6 : Int) } },
        message := undefinedMessage "printx".data,
        severity := DiagnosticSeverity.Error,
        source := "MyOPL" }
      (parse_document "VAR age = 10\nprint(age)\nprintx(age)").2 = 1 :=
  (claim1_one_diagnostic_per_flagged_token "VAR age = 10\nprint(age)\nprintx(age)" 2
    "printx(age)".data (Token.mk 0 "printx".data)
    (by decide) (by decide) (by decide)).1 (by decide)

/-- C5 (counterexample): on the line `VAR<TAB>x 5`, the trimmed line's
first word is `VAR` (case-insensitively) and a second word follows, yet no
Symbol is recorded — the source demands a literal space as the fourth
character (`startswith("VAR ")`), which the tab defeats. -/
theorem claim5_counterexample :
    ((pyStrip "VAR\tx 5".data).takeWhile (fun c => !(pyIsSpace c))).map Char.toUpper
      = "VAR".data ∧
    2 ≤ (splitMax2 (pyStrip "VAR\tx 5".data)).length ∧
    (parse_document "VAR\tx 5").1 = [] := by
  refine ⟨by decide, by decide, by decide⟩

/-- C5 (amended): a line is recognized as a declaration exactly when its
trimmed form, uppercased, starts with the four characters `VAR` followed by
a literal space; the recorded name is then the word following those three
keyword characters and the value is the remainder of the line after the
name (whitespace-separated), defaulting to `"undefined"`; and every stored
Symbol arises from such a recognized line. -/
theorem claim5_declaration_recognition (rawLine : List Char) :
    ((declInfo rawLine).isSome ↔
      List.isPrefixOf "VAR ".data ((pyStrip rawLine).map Char.toUpper) = true) ∧
    (∀ n c v, declInfo rawLine = some (n, c, v) →
      n = (((pyStrip rawLine).drop 3).dropWhile pyIsSpace).takeWhile
            (fun ch => !(pyIsSpace ch)) ∧
      v = (if (((((pyStrip rawLine).drop 3).dropWhile pyIsSpace).dropWhile
              (fun ch => !(pyIsSpace ch))).dropWhile pyIsSpace).isEmpty
           then "undefined".data
           else ((((pyStrip rawLine).drop 3).dropWhile pyIsSpace).dropWhile
              (fun ch => !(pyIsSpace ch))).dropWhile pyIsSpace)) ∧
    (∀ (text : String) (n : List Char) (info : VarInfo),
      lookupList n (parse_document text).1 = some info →
      ∃ raw, (splitLines text.data).get? info.1 = some raw ∧
        declInfo raw = some (n, info.2.1, info.2.2)) := by
  refine ⟨⟨declInfo_isSome_startswith, ?_⟩, ?_, ?_⟩
  · intro hp
    rw [declInfo_eq_of_startswith hp]
    rfl
  · intro n c v h
    have hp := declInfo_isSome_startswith (by rw [h]; rfl)
    have hchar := declInfo_eq_of_startswith hp
    rw [h] at hchar
    simp only [Option.some.injEq, Prod.mk.injEq] at hchar
    exact ⟨hchar.1, hchar.2.2⟩
  · intro text n info hlk
    exact parse_vars_sound hlk

theorem claim5_witness :
    (declInfo "  var y = 3".data).isSome ∧
    declInfo "  var y = 3".data = some ("y".data, (4 : Int), "= 3".data) :=
  ⟨((claim5_declaration_recognition "  var y = 3".data).1).2 (by decide), by decide⟩

/-- C7: for a stored document and a cursor bracketed by a token, the
definition resolver returns the declared Symbol's position spanning the
declaration name's exact column range, and no result when the token is not
a declared Symbol. -/
theorem claim7_definition_resolution (store : DocumentStates) (uri : String)
    (st : DocState) (pos : CursorPos) (line : List Char) (t : Token)
    (hs : lookupList uri store = some st)
    (hl : (splitLines st.text.data).get? pos.line = some line)
    (ht : t ∈ tokenize line)
    (hb1 : t.start ≤ pos.character) (hb2 : pos.character ≤ t.stop) :
    (∀ (dl : Nat) (dc : Int) (dv : List Char),
      lookupList t.text st.vars = some (dl, dc, dv) →
      definitionR store uri pos = Except.ok (some
        { uri := uri,
          range := { start := { line := dl, character := dc },
                     stop := { line := dl, character := dc + t.text.length } } })) ∧
    (lookupList t.text st.vars = none →
      definitionR store uri pos = Except.ok none) := by
  have hres := definitionR_resolved hs hl ht hb1 hb2
  constructor
  · intro dl dc dv hlk
    rw [hres]
    unfold definitionToken
    rw [if_pos ⟨hb1, hb2⟩, hlk]
  · intro hlk
    rw [hres]
    unfold definitionToken
    rw [if_pos ⟨hb1, hb2⟩, hlk]

theorem claim7_witness :
    definitionR [("file:///doc.myopl",
        { text := "VAR x = 1\nx", vars := [("x".data, (0, 4, "= 1".data))] })]
      "file:///doc.myopl" { line := 1, character := 0 } =
      Except.ok (some
        { uri := "file:///doc.myopl",
          range := { start := { line := 0, character := 4 },
                     stop := { line := 0, character := 5 } } }) :=
  (claim7_definition_resolution
    [("file:///doc.myopl",
      { text := "VAR x = 1\nx", vars := [("x".data, (0, 4, "= 1".data))] })]
    "file:///doc.myopl"
    { text := "VAR x = 1\nx", vars := [("x".data, (0, 4, "= 1".data))] }
    { line := 1, character := 0 } "x".data (Token.mk 0 "x".data)
    (by decide) (by decide) (by decide) (by decide) (by decide)).1
    0 4 "= 1".data (by decide)

/-- C8: the hover resolver checks the categories in the fixed order
declared Symbol, then builtin function, then keyword (case-insensitive),
and returns only the first match; a token that is both a declared Symbol
and a builtin or keyword shows only the Symbol information. -/
theorem claim8_hover_priority (store : DocumentStates) (uri : String)
    (st : DocState) (pos : CursorPos) (line : List Char) (t : Token)
    (hs : lookupList uri store = some st)
    (hl : (splitLines st.text.data).get? pos.line = some line)
    (ht : t ∈ tokenize line)
    (hb1 : t.start ≤ pos.character) (hb2 : pos.character ≤ t.stop) :
    (∀ (dl : Nat) (dc : Int) (dv : List Char),
      lookupList t.text st.vars = some (dl, dc, dv) →
      hoverR store uri pos = Except.ok (some
        { contents := hoverVariableContents t.text dv,
          range := some { start := { line := pos.line, character := (t.start : Int) },
                          stop := { line := pos.line, character := (t.stop : Int) } } })) ∧
    (lookupList t.text st.vars = none →
      ∀ desc, lookupList t.text builtinsData = some desc →
      hoverR store uri pos = Except.ok (some
        { contents := hoverBuiltinContents t.text desc, range := none })) ∧
    (lookupList t.text st.vars = none →
      lookupList t.text builtinsData = none →
      t.text.map Char.toUpper ∈ keywordsData →
      hoverR store uri pos = Except.ok (some
        { contents := hoverKeywordContents t.text, range := none })) := by
  have hres := hoverR_resolved hs hl ht hb1 hb2
  refine ⟨?_, ?_, ?_⟩
  · intro dl dc dv hlk
    rw [hres]
    unfold hoverToken
    rw [if_pos ⟨hb1, hb2⟩, hlk]
  · intro hlk desc hlb
    rw [hres]
    unfold hoverToken
    rw [if_pos ⟨hb1, hb2⟩, hlk, hlb]
  · intro hlk hlb hk
    rw [hres]
    unfold hoverToken
    rw [if_pos ⟨hb1, hb2⟩, hlk, hlb, if_pos (decide_eq_true hk)]

theorem claim8_witness :
    hoverR [("file:///doc.myopl",
        { text := "VAR print = 1\nprint", vars := [("print".data, (0, 4, "= 1".data))] })]
      "file:///doc.myopl" { line := 1, character := 2 } =
      Except.ok (some
        { contents := hoverVariableContents "print".data "= 1".data,
          range := some { start := { line := 1, character := 0 },
                          stop := { line := 1, character := 5 } } }) :=
  (claim8_hover_priority
    [("file:///doc.myopl",
      { text := "VAR print = 1\nprint", vars := [("print".data, (0, 4, "= 1".data))] })]
    "file:///doc.myopl"
    { text := "VAR print = 1\nprint", vars := [("print".data, (0, 4, "= 1".data))] }
    { line := 1, character := 2 } "print".data (Token.mk 0 "print".data)
    (by decide) (by decide) (by decide) (by decide) (by decide)).1
    0 4 "= 1".data (by decide)

/-- C10: for a token under the cursor, the hover result carries a
highlight range spanning exactly the token's columns when the token is a
declared Symbol, and carries no range when it is not (builtin and keyword
hovers return contents only). -/
theorem claim10_hover_range (store : DocumentStates) (uri : String)
    (st : DocState) (pos : CursorPos) (line : List Char) (t : Token)
    (hs : lookupList uri store = some st)
    (hl : (splitLines st.text.data).get? pos.line = some line)
    (ht : t ∈ tokenize line)
    (hb1 : t.start ≤ pos.character) (hb2 : pos.character ≤ t.stop) :
    ((lookupList t.text st.vars).isSome →
      ∃ h : HoverResult, hoverR store uri pos = Except.ok (some h) ∧
        h.range = some { start := { line := pos.line, character := (t.start : Int) },
                         stop := { line := pos.line, character := (t.stop : Int) } }) ∧
    (∀ h : HoverResult, hoverR store uri pos = Except.ok (some h) →
      lookupList t.text st.vars = none → h.range = none) := by
  have hres := hoverR_resolved hs hl ht hb1 hb2
  constructor
  · intro hsome
    obtain ⟨⟨dl, dc, dv⟩, hlk⟩ := Option.isSome_iff_exists.1 hsome
    refine ⟨{ contents := hoverVariableContents t.text dv,
              range := some { start := { line := pos.line, character := (t.start : Int) },
                              stop := { line := pos.line, character := (t.stop : Int) } } },
            ?_, rfl⟩
    rw [hres]
    unfold hoverToken
    rw [if_pos ⟨hb1, hb2⟩, hlk]
  · intro h hh hnone
    rw [hres] at hh
    unfold hoverToken at hh
    rw [if_pos ⟨hb1, hb2⟩, hnone] at hh
    cases hlb : lookupList t.text builtinsData with
    | some desc =>
      rw [hlb] at hh
      injection hh with hh
      injection hh with hh
      rw [← hh]
    | none =>
      rw [hlb] at hh
      rcases Bool.dichotomy (decide (t.text.map Char.toUpper ∈ keywordsData)) with hk | hk
      · rw [if_neg (by rw [hk]; exact Bool.noConfusion)] at hh
        exact absurd hh (by simp)
      · rw [if_pos hk] at hh
        injection hh with hh
        injection hh with hh
        rw [← hh]

theorem claim10_witness :
    ∃ h : HoverResult,
      hoverR [("file:///doc.myopl",
          { text := "VAR x = 1\nx", vars := [("x".data, (0, 4, "= 1".data))] })]
        "file:///doc.myopl" { line := 1, character := 0 } = Except.ok (some h) ∧
      h.range = some { start := { line := 1, character := 0 },
                       stop := { line := 1, character := 1 } } :=
  (claim10_hover_range
    [("file:///doc.myopl",
      { text := "VAR x = 1\nx", vars := [("x".data, (0, 4, "= 1".data))] })]
    "file:///doc.myopl"
    { text := "VAR x = 1\nx", vars := [("x".data, (0, 4, "= 1".data))] }
    { line := 1, character := 0 } "x".data (Token.mk 0 "x".data)
    (by decide) (by decide) (by decide) (by decide) (by decide)).1 (by decide)

end MyOPL

